import Mathlib

/-!
Shallow embedding of `match.py` (partner_matching): data model, suitability
scorer, eligibility-graph builder, matching engine and cutoff search, with
theorems checking the specification's claims against the code.
-/

namespace PartnerMatching

/-- One participant, as stored by the `Student` class of `match.py`.
`available_times` is the 0/1 availability vector (`avail_arr`); `netid`
is the email-derived identifier. `start_pref` and `priority` are the two
integers parsed from the table. -/
structure Student where
  name : String
  email : String
  netid : String
  start_pref : ℤ
  priority : ℤ
  available_times : List ℕ
  contact : String
deriving Inhabited, DecidableEq

/-- `PREF_MAX_DIFF` from `match.py`: maximum allowed difference between
start preferences. -/
def PREF_MAX_DIFF : ℤ := 1

/-- `PRIO_MAX_DIFF` from `match.py`: maximum allowed difference between
priorities. -/
def PRIO_MAX_DIFF : ℤ := 1

/-- `np.dot` on the availability vectors: sum of pointwise products. -/
def dot (a b : List ℕ) : ℕ := (List.zipWith (fun x y => x * y) a b).sum

/-- The entry the scorer writes at position `(i1, i2)`.  In the source the
guard is `s1 != s2` (object identity); since `import_data` allocates a fresh
object per row, two list positions hold the same object iff the positions
are equal, so identity is embedded as index inequality. -/
def suitEntry (students : List Student) (i1 i2 : ℕ) : ℕ :=
  let s1 := students.getD i1 default
  let s2 := students.getD i2 default
  if i1 ≠ i2 ∧ |s1.start_pref - s2.start_pref| ≤ PREF_MAX_DIFF ∧
      |s1.priority - s2.priority| ≤ PRIO_MAX_DIFF then
    dot s1.available_times s2.available_times
  else 0

/-- `build_suit_matrix` of `match.py`: the N×N score matrix (row-major). -/
def build_suit_matrix (students : List Student) : List (List ℕ) :=
  (List.range students.length).map (fun i1 =>
    (List.range students.length).map (fun i2 => suitEntry students i1 i2))

/-- Reading entry `(i, j)` of a row-major matrix; out-of-range reads give 0
(`numpy` would raise, but every access in the program is in range). -/
def matGet (m : List (List ℕ)) (i j : ℕ) : ℕ := (m.getD i []).getD j 0

theorem range_map_getD (n : ℕ) (f : ℕ → ℕ) (i : ℕ) (hi : i < n) :
    ((List.range n).map f).getD i 0 = f i := by
  simp [List.getD_eq_getElem?_getD, List.getElem?_map, List.getElem?_range, hi]

theorem range_map_getD_oob {α : Type} (n : ℕ) (f : ℕ → α) (i : ℕ) (d : α)
    (hi : n ≤ i) : ((List.range n).map f).getD i d = d := by
  have h : (List.range n)[i]? = none := by
    rw [List.getElem?_eq_none_iff]; simpa using hi
  simp [List.getD_eq_getElem?_getD, List.getElem?_map, h]

theorem matGet_build_suit_matrix (students : List Student) (i j : ℕ)
    (hi : i < students.length) (hj : j < students.length) :
    matGet (build_suit_matrix students) i j = suitEntry students i j := by
  unfold matGet build_suit_matrix
  rw [show ((List.range students.length).map (fun i1 =>
      (List.range students.length).map
        (fun i2 => suitEntry students i1 i2))).getD i [] =
      (List.range students.length).map (fun i2 => suitEntry students i i2) by
    simp [List.getD_eq_getElem?_getD, List.getElem?_map, List.getElem?_range, hi]]
  exact range_map_getD students.length (fun i2 => suitEntry students i i2) j hj

theorem matGet_build_suit_matrix_oob (students : List Student) (i j : ℕ)
    (h : students.length ≤ i ∨ students.length ≤ j) :
    matGet (build_suit_matrix students) i j = 0 := by
  unfold matGet build_suit_matrix
  rcases h with h | h
  · rw [range_map_getD_oob students.length _ i [] h]
    simp [List.getD]
  · rcases Nat.lt_or_ge i students.length with hi | hi
    · rw [show ((List.range students.length).map (fun i1 =>
          (List.range students.length).map
            (fun i2 => suitEntry students i1 i2))).getD i [] =
          (List.range students.length).map (fun i2 => suitEntry students i i2) by
        simp [List.getD_eq_getElem?_getD, List.getElem?_map, List.getElem?_range, hi]]
      exact range_map_getD_oob students.length _ j 0 h
    · rw [range_map_getD_oob students.length _ i [] hi]
      simp [List.getD]

theorem dot_comm (a b : List ℕ) : dot a b = dot b a := by
  unfold dot
  induction a generalizing b with
  | nil => cases b <;> simp
  | cons x xs ih =>
    cases b with
    | nil => simp
    | cons y ys => simp [List.zipWith, ih, Nat.mul_comm]

theorem suitEntry_comm (students : List Student) (i j : ℕ) :
    suitEntry students i j = suitEntry students j i := by
  unfold suitEntry
  by_cases hij : i = j
  · subst hij; rfl
  · simp only []
    rw [abs_sub_comm ((students.getD i default).start_pref),
      abs_sub_comm ((students.getD i default).priority),
      dot_comm]
    by_cases h1 : |(students.getD j default).start_pref -
        (students.getD i default).start_pref| ≤ PREF_MAX_DIFF
    · by_cases h2 : |(students.getD j default).priority -
          (students.getD i default).priority| ≤ PRIO_MAX_DIFF
      · simp [hij, Ne.symm hij, h1, h2]
      · simp [hij, Ne.symm hij, h1, h2]
    · simp [hij, Ne.symm hij, h1]

/-- A `networkx` graph as used by `build_graph`: node set and edge set,
kept as insertion-ordered duplicate-free lists.  Every edge the program
inserts is oriented with the smaller netid first, so storing directed
pairs is faithful. -/
structure PyGraph where
  nodes : List String
  edges : List (String × String)

/-- Adding a node to the node set (no-op when already present). -/
def addNode (ns : List String) (x : String) : List String :=
  if x ∈ ns then ns else ns ++ [x]

/-- `graph.add_edge(u, v)`: inserts both endpoints and the edge. -/
def add_edge (g : PyGraph) (u v : String) : PyGraph :=
  { nodes := addNode (addNode g.nodes u) v,
    edges := if (u, v) ∈ g.edges then g.edges else g.edges ++ [(u, v)] }

/-- Decidability of the lexicographic string order through the character
lists, so that concrete graphs evaluate inside the kernel. -/
instance strDecLT (s t : String) : Decidable (s < t) :=
  decidable_of_iff (s.toList < t.toList) String.lt_iff_toList_lt.symm

/-- The source's guard for the pair `(i1, i2)` of the `build_graph` double
loop: `suit_matrix[index1, index2] >= cutoff` and `netid1 < netid2`. -/
def edgeCond (netids : List String) (m : List (List ℕ)) (cutoff : ℤ)
    (i1 i2 : ℕ) : Prop :=
  (matGet m i1 i2 : ℤ) ≥ cutoff ∧ netids.getD i1 "" < netids.getD i2 ""

instance (netids : List String) (m : List (List ℕ)) (cutoff : ℤ) (i1 i2 : ℕ) :
    Decidable (edgeCond netids m cutoff i1 i2) := by
  unfold edgeCond; infer_instance

/-- One candidate index pair of the `build_graph` double loop. -/
def graphStep (netids : List String) (m : List (List ℕ)) (cutoff : ℤ)
    (g : PyGraph) (p : ℕ × ℕ) : PyGraph :=
  if edgeCond netids m cutoff p.1 p.2 then
    add_edge g (netids.getD p.1 "") (netids.getD p.2 "")
  else g

/-- All ordered index pairs scanned by the nested loops of `build_graph`. -/
def indexPairs (n : ℕ) : List (ℕ × ℕ) :=
  (List.range n).flatMap (fun i1 => (List.range n).map (fun i2 => (i1, i2)))

/-- `build_graph` of `match.py`: edge `(netid1, netid2)` is added whenever
`suit_matrix[index1, index2] >= cutoff` and `netid1 < netid2`. -/
def build_graph (netids : List String) (m : List (List ℕ)) (cutoff : ℤ) :
    PyGraph :=
  (indexPairs netids.length).foldl (graphStep netids m cutoff) ⟨[], []⟩

theorem mem_edges_add_edge (g : PyGraph) (u v : String) (e : String × String) :
    e ∈ (add_edge g u v).edges ↔ e ∈ g.edges ∨ e = (u, v) := by
  unfold add_edge
  by_cases h : (u, v) ∈ g.edges
  · simp only [h, if_pos]
    constructor
    · exact Or.inl
    · rintro (he | he)
      · exact he
      · exact he ▸ h
  · simp [h]

theorem mem_nodes_add_edge (g : PyGraph) (u v : String) (x : String) :
    x ∈ (add_edge g u v).nodes ↔ x ∈ g.nodes ∨ x = u ∨ x = v := by
  have haddNode : ∀ (ns : List String) (y z : String),
      z ∈ addNode ns y ↔ z ∈ ns ∨ z = y := by
    intro ns y z
    unfold addNode
    by_cases hy : y ∈ ns
    · constructor
      · intro hz; rw [if_pos hy] at hz; exact Or.inl hz
      · rintro (hz | rfl)
        · rwa [if_pos hy]
        · rwa [if_pos hy]
    · rw [if_neg hy]
      simp
  show x ∈ addNode (addNode g.nodes u) v ↔ _
  rw [haddNode, haddNode]
  tauto

theorem mem_edges_foldl (netids : List String) (m : List (List ℕ)) (cutoff : ℤ)
    (l : List (ℕ × ℕ)) (g : PyGraph) (e : String × String) :
    e ∈ (l.foldl (graphStep netids m cutoff) g).edges ↔
      e ∈ g.edges ∨ ∃ p ∈ l, edgeCond netids m cutoff p.1 p.2 ∧
        e = (netids.getD p.1 "", netids.getD p.2 "") := by
  induction l generalizing g with
  | nil => simp
  | cons q l ih =>
    rw [List.foldl_cons, ih]
    unfold graphStep
    by_cases hq : edgeCond netids m cutoff q.1 q.2
    · rw [if_pos hq, mem_edges_add_edge]
      constructor
      · rintro ((he | he) | ⟨p, hp, hc, he⟩)
        · exact Or.inl he
        · exact Or.inr ⟨q, List.mem_cons_self q l, hq, he⟩
        · exact Or.inr ⟨p, List.mem_cons_of_mem q hp, hc, he⟩
      · rintro (he | ⟨p, hp, hc, he⟩)
        · exact Or.inl (Or.inl he)
        · rcases List.mem_cons.mp hp with rfl | hp
          · exact Or.inl (Or.inr he)
          · exact Or.inr ⟨p, hp, hc, he⟩
    · rw [if_neg (by exact hq)]
      constructor
      · rintro (he | ⟨p, hp, hc, he⟩)
        · exact Or.inl he
        · exact Or.inr ⟨p, List.mem_cons_of_mem q hp, hc, he⟩
      · rintro (he | ⟨p, hp, hc, he⟩)
        · exact Or.inl he
        · rcases List.mem_cons.mp hp with rfl | hp
          · exact absurd hc hq
          · exact Or.inr ⟨p, hp, hc, he⟩

theorem mem_nodes_foldl (netids : List String) (m : List (List ℕ)) (cutoff : ℤ)
    (l : List (ℕ × ℕ)) (g : PyGraph) (x : String) :
    x ∈ (l.foldl (graphStep netids m cutoff) g).nodes ↔
      x ∈ g.nodes ∨ ∃ p ∈ l, edgeCond netids m cutoff p.1 p.2 ∧
        (x = netids.getD p.1 "" ∨ x = netids.getD p.2 "") := by
  induction l generalizing g with
  | nil => simp
  | cons q l ih =>
    rw [List.foldl_cons, ih]
    unfold graphStep
    by_cases hq : edgeCond netids m cutoff q.1 q.2
    · rw [if_pos hq, mem_nodes_add_edge]
      constructor
      · rintro ((he | he) | ⟨p, hp, hc, he⟩)
        · exact Or.inl he
        · exact Or.inr ⟨q, List.mem_cons_self q l, hq, he⟩
        · exact Or.inr ⟨p, List.mem_cons_of_mem q hp, hc, he⟩
      · rintro (he | ⟨p, hp, hc, he⟩)
        · exact Or.inl (Or.inl he)
        · rcases List.mem_cons.mp hp with rfl | hp
          · exact Or.inl (Or.inr he)
          · exact Or.inr ⟨p, hp, hc, he⟩
    · rw [if_neg (by exact hq)]
      constructor
      · rintro (he | ⟨p, hp, hc, he⟩)
        · exact Or.inl he
        · exact Or.inr ⟨p, List.mem_cons_of_mem q hp, hc, he⟩
      · rintro (he | ⟨p, hp, hc, he⟩)
        · exact Or.inl he
        · rcases List.mem_cons.mp hp with rfl | hp
          · exact absurd hc hq
          · exact Or.inr ⟨p, hp, hc, he⟩

theorem mem_indexPairs (n : ℕ) (p : ℕ × ℕ) :
    p ∈ indexPairs n ↔ p.1 < n ∧ p.2 < n := by
  unfold indexPairs
  rcases p with ⟨i, j⟩
  simp [List.mem_flatMap, List.mem_map, List.mem_range]

theorem mem_edges_build_graph (netids : List String) (m : List (List ℕ))
    (cutoff : ℤ) (e : String × String) :
    e ∈ (build_graph netids m cutoff).edges ↔
      ∃ i1 i2, i1 < netids.length ∧ i2 < netids.length ∧
        edgeCond netids m cutoff i1 i2 ∧
        e = (netids.getD i1 "", netids.getD i2 "") := by
  unfold build_graph
  rw [mem_edges_foldl]
  constructor
  · rintro (he | ⟨p, hp, hc, he⟩)
    · simp at he
    · rcases (mem_indexPairs _ p).mp hp with ⟨h1, h2⟩
      exact ⟨p.1, p.2, h1, h2, hc, he⟩
  · rintro ⟨i1, i2, h1, h2, hc, he⟩
    exact Or.inr ⟨(i1, i2), (mem_indexPairs _ (i1, i2)).mpr ⟨h1, h2⟩, hc, he⟩

theorem mem_nodes_build_graph (netids : List String) (m : List (List ℕ))
    (cutoff : ℤ) (x : String) :
    x ∈ (build_graph netids m cutoff).nodes ↔
      ∃ i1 i2, i1 < netids.length ∧ i2 < netids.length ∧
        edgeCond netids m cutoff i1 i2 ∧
        (x = netids.getD i1 "" ∨ x = netids.getD i2 "") := by
  unfold build_graph
  rw [mem_nodes_foldl]
  constructor
  · rintro (he | ⟨p, hp, hc, he⟩)
    · simp at he
    · rcases (mem_indexPairs _ p).mp hp with ⟨h1, h2⟩
      exact ⟨p.1, p.2, h1, h2, hc, he⟩
  · rintro ⟨i1, i2, h1, h2, hc, he⟩
    exact Or.inr ⟨(i1, i2), (mem_indexPairs _ (i1, i2)).mpr ⟨h1, h2⟩, hc, he⟩

theorem edges_nodup_add_edge (g : PyGraph) (u v : String)
    (h : g.edges.Nodup) : (add_edge g u v).edges.Nodup := by
  unfold add_edge
  by_cases he : (u, v) ∈ g.edges
  · simpa [he]
  · simp only [he, if_neg, ite_false]
    exact List.Nodup.append h (List.nodup_singleton _) (by simpa using he)

theorem edges_nodup_foldl (netids : List String) (m : List (List ℕ))
    (cutoff : ℤ) (l : List (ℕ × ℕ)) (g : PyGraph) (h : g.edges.Nodup) :
    (l.foldl (graphStep netids m cutoff) g).edges.Nodup := by
  induction l generalizing g with
  | nil => simpa
  | cons q l ih =>
    rw [List.foldl_cons]
    apply ih
    unfold graphStep
    by_cases hq : edgeCond netids m cutoff q.1 q.2
    · rw [if_pos hq]; exact edges_nodup_add_edge _ _ _ h
    · rwa [if_neg (by exact hq)]

theorem edges_nodup_build_graph (netids : List String) (m : List (List ℕ))
    (cutoff : ℤ) : (build_graph netids m cutoff).edges.Nodup :=
  edges_nodup_foldl netids m cutoff _ _ (by simp)

/-- Two candidate matching edges sharing no endpoint. -/
def EdgesDisjoint {α : Type} (e f : α × α) : Prop :=
  e.1 ≠ f.1 ∧ e.1 ≠ f.2 ∧ e.2 ≠ f.1 ∧ e.2 ≠ f.2

instance {α : Type} [DecidableEq α] (e f : α × α) :
    Decidable (EdgesDisjoint e f) := by
  unfold EdgesDisjoint; infer_instance

theorem edgesDisjoint_symm {α : Type} : Symmetric (@EdgesDisjoint α) := by
  rintro ⟨a, b⟩ ⟨c, d⟩ ⟨h1, h2, h3, h4⟩
  exact ⟨Ne.symm h1, Ne.symm h3, Ne.symm h2, Ne.symm h4⟩

/-- A list of edges forming a matching: no self-loops, and no two edges
share an endpoint (no vertex is covered twice). -/
def IsMatching {α : Type} (m : List (α × α)) : Prop :=
  (∀ e ∈ m, e.1 ≠ e.2) ∧ m.Pairwise EdgesDisjoint

instance {α : Type} [DecidableEq α] (m : List (α × α)) :
    Decidable (IsMatching m) := by
  unfold IsMatching; exact instDecidableAnd

/-- Keep the longer of two candidate matchings (the selection step of the
modelled engine). -/
def pickLonger {α : Type} (best m : List (α × α)) : List (α × α) :=
  if best.length < m.length then m else best

/-- Modelled from the spec: the Matching Engine of §4.3 is missing from
`src/` — `match_students` delegates to the external
`networkx.algorithms.matching.max_weight_matching(graph, maxcardinality=True)`.
Following the spec's contract ("given an undirected simple graph G, return
a matching M maximizing the number of edges, every edge treated as weight
1, such that no vertex is covered twice"), the engine is modelled as
choosing a maximum-cardinality matching among all sublists of the edge
list. -/
def max_weight_matching {α : Type} [DecidableEq α] (edges : List (α × α)) :
    List (α × α) :=
  ((edges.sublists).filter (fun m => decide (IsMatching m))).foldl
    pickLonger []

theorem pickLonger_foldl_mem {α : Type} (l : List (List (α × α)))
    (init : List (α × α)) :
    l.foldl pickLonger init = init ∨ l.foldl pickLonger init ∈ l := by
  induction l generalizing init with
  | nil => exact Or.inl rfl
  | cons m l ih =>
    rw [List.foldl_cons]
    by_cases hc : init.length < m.length
    · rw [show pickLonger init m = m by unfold pickLonger; rw [if_pos hc]]
      rcases ih m with h | h
      · exact Or.inr (by rw [h]; exact List.mem_cons_self m l)
      · exact Or.inr (List.mem_cons_of_mem m h)
    · rw [show pickLonger init m = init by unfold pickLonger; rw [if_neg hc]]
      rcases ih init with h | h
      · exact Or.inl h
      · exact Or.inr (List.mem_cons_of_mem m h)

theorem pickLonger_foldl_ge {α : Type} (l : List (List (α × α)))
    (init : List (α × α)) :
    init.length ≤ (l.foldl pickLonger init).length ∧
      ∀ m ∈ l, m.length ≤ (l.foldl pickLonger init).length := by
  induction l generalizing init with
  | nil => exact ⟨Nat.le_refl _, by simp⟩
  | cons m l ih =>
    rw [List.foldl_cons]
    rcases ih (pickLonger init m) with ⟨h1, h2⟩
    have hinit : init.length ≤ (pickLonger init m).length := by
      unfold pickLonger
      by_cases hc : init.length < m.length
      · rw [if_pos hc]; exact Nat.le_of_lt hc
      · rw [if_neg hc]
    have hm : m.length ≤ (pickLonger init m).length := by
      unfold pickLonger
      by_cases hc : init.length < m.length
      · rw [if_pos hc]
      · rw [if_neg hc]; exact Nat.le_of_not_lt hc
    refine ⟨Nat.le_trans hinit h1, ?_⟩
    intro m' hm'
    rcases List.mem_cons.mp hm' with rfl | hm'
    · exact Nat.le_trans hm h1
    · exact h2 m' hm'

theorem max_weight_matching_isMatching {α : Type} [DecidableEq α]
    (edges : List (α × α)) : IsMatching (max_weight_matching edges) := by
  unfold max_weight_matching
  rcases pickLonger_foldl_mem
      ((edges.sublists).filter (fun m => decide (IsMatching m))) [] with h | h
  · rw [h]
    exact ⟨by simp, List.Pairwise.nil⟩
  · have := (List.mem_filter.mp h).2
    simpa using this

theorem max_weight_matching_sublist {α : Type} [DecidableEq α]
    (edges : List (α × α)) :
    List.Sublist (max_weight_matching edges) edges := by
  unfold max_weight_matching
  rcases pickLonger_foldl_mem
      ((edges.sublists).filter (fun m => decide (IsMatching m))) [] with h | h
  · rw [h]; exact List.nil_sublist edges
  · exact List.mem_sublists.mp (List.mem_filter.mp h).1

theorem max_weight_matching_subset {α : Type} [DecidableEq α]
    (edges : List (α × α)) : ∀ e ∈ max_weight_matching edges, e ∈ edges :=
  fun _ he => (max_weight_matching_sublist edges).subset he

theorem max_weight_matching_nodup {α : Type} [DecidableEq α]
    (edges : List (α × α)) (h : edges.Nodup) :
    (max_weight_matching edges).Nodup :=
  (max_weight_matching_sublist edges).nodup h

theorem max_weight_matching_max {α : Type} [DecidableEq α]
    (edges : List (α × α)) (m : List (α × α)) (hm : IsMatching m)
    (hnd : m.Nodup) (hsub : ∀ e ∈ m, e ∈ edges) :
    m.length ≤ (max_weight_matching edges).length := by
  rcases List.subperm_of_subset hnd hsub with ⟨l, hperm, hsl⟩
  have hlm : IsMatching l := by
    rcases hm with ⟨h1, h2⟩
    refine ⟨fun e he => h1 e (hperm.mem_iff.mp he), ?_⟩
    exact ((hperm.symm).pairwise_iff
      (fun hab => edgesDisjoint_symm hab)).mp h2
  have hmem : l ∈ (edges.sublists).filter (fun m => decide (IsMatching m)) :=
    List.mem_filter.mpr ⟨List.mem_sublists.mpr hsl, by simpa using hlm⟩
  have := (pickLonger_foldl_ge
    ((edges.sublists).filter (fun m => decide (IsMatching m))) []).2 l hmem
  calc m.length = l.length := hperm.symm.length_eq
    _ ≤ _ := this

/-- The dict comprehension `{netid : i for i, netid in enumerate(netids)}`
followed by the lookup `netid_to_index[x]`: later entries overwrite
earlier ones, so a duplicated netid maps to its last index.  The source
would raise `KeyError` for an `x` outside `netids`; that case is
unreachable in the program (every edge endpoint comes from `netids`), and
the embedding returns the fold's initial accumulator 0 there. -/
def netid_to_index (netids : List String) (x : String) : ℕ :=
  (netids.enum).foldl (fun acc p => if p.2 = x then p.1 else acc) 0

theorem netid_to_index_foldl_not_mem (l : List (ℕ × String)) (x : String)
    (acc : ℕ) (hx : ∀ p ∈ l, p.2 ≠ x) :
    l.foldl (fun acc p => if p.2 = x then p.1 else acc) acc = acc := by
  induction l generalizing acc with
  | nil => rfl
  | cons q l ih =>
    rw [List.foldl_cons, if_neg (hx q (List.mem_cons_self q l))]
    exact ih acc (fun p hp => hx p (List.mem_cons_of_mem q hp))

theorem snd_mem_of_mem_enumFrom {α : Type} (l : List α) (i : ℕ) (p : ℕ × α)
    (hp : p ∈ List.enumFrom i l) : p.2 ∈ l := by
  induction l generalizing i with
  | nil => simp at hp
  | cons a l ih =>
    rw [List.enumFrom_cons] at hp
    rcases List.mem_cons.mp hp with h | hp
    · rw [h]; exact List.mem_cons_self a l
    · exact List.mem_cons_of_mem a (ih (i + 1) hp)

theorem netid_to_index_enumFrom (l : List String) (x : String) (hx : x ∈ l)
    (i acc : ℕ) :
    ∃ j, j < l.length ∧ l.getD j "" = x ∧
      (List.enumFrom i l).foldl
        (fun acc p => if p.2 = x then p.1 else acc) acc = i + j := by
  induction l generalizing i acc with
  | nil => exact absurd hx (List.not_mem_nil x)
  | cons a l ih =>
    rw [List.enumFrom_cons, List.foldl_cons]
    by_cases hmem : x ∈ l
    · rcases ih hmem (i + 1) (if a = x then i else acc) with ⟨j, hj, hget, heq⟩
      refine ⟨j + 1, by simpa using hj, by simpa using hget, ?_⟩
      rw [heq]; omega
    · have ha : a = x := by
        rcases List.mem_cons.mp hx with h | h
        · exact h.symm
        · exact absurd h hmem
      rw [if_pos ha]
      refine ⟨0, by simp, by simpa using ha, ?_⟩
      rw [netid_to_index_foldl_not_mem]
      · omega
      · intro p hp hpx
        exact hmem (hpx ▸ snd_mem_of_mem_enumFrom l (i + 1) p hp)

/-- For a member of `netids`, `netid_to_index` returns an index that reads
back to it; this makes the lookup injective on members. -/
theorem getD_netid_to_index (netids : List String) (x : String)
    (hx : x ∈ netids) :
    netid_to_index netids x < netids.length ∧
      netids.getD (netid_to_index netids x) "" = x := by
  rcases netid_to_index_enumFrom netids x hx 0 0 with ⟨j, hj, hget, heq⟩
  have : netid_to_index netids x = j := by
    unfold netid_to_index
    rw [show netids.enum = List.enumFrom 0 netids from rfl, heq]
    omega
  rw [this]
  exact ⟨hj, hget⟩

theorem netid_to_index_injOn (netids : List String) (x y : String)
    (hx : x ∈ netids) (hy : y ∈ netids)
    (h : netid_to_index netids x = netid_to_index netids y) : x = y := by
  have h1 := (getD_netid_to_index netids x hx).2
  have h2 := (getD_netid_to_index netids y hy).2
  rw [← h1, ← h2, h]

/-- A Python dict as an insertion-ordered association list: assigning to
an existing key overwrites in place, a new key is appended. -/
def dinsert (d : List (ℕ × ℕ)) (k v : ℕ) : List (ℕ × ℕ) :=
  if d.any (fun p => p.1 = k) then
    d.map (fun p => if p.1 = k then (k, v) else p)
  else d ++ [(k, v)]

theorem dinsert_fresh (d : List (ℕ × ℕ)) (k v : ℕ)
    (h : ∀ p ∈ d, p.1 ≠ k) : dinsert d k v = d ++ [(k, v)] := by
  unfold dinsert
  have hne : (d.any (fun p => p.1 = k)) = false := by
    rw [List.any_eq_false]
    intro p hp
    simpa using h p hp
  rw [hne]
  simp

/-- Recording one matched pair: `matching[s1] = s2; matching[s2] = s1`. -/
def matchStep (netids : List String) (d : List (ℕ × ℕ))
    (e : String × String) : List (ℕ × ℕ) :=
  dinsert (dinsert d (netid_to_index netids e.1) (netid_to_index netids e.2))
    (netid_to_index netids e.2) (netid_to_index netids e.1)

/-- `match_students` of `match.py`: run the matching engine on the graph,
then record each matched pair in both directions in a dict from student
index to partner index.  (The `students` parameter of the source function
is unused by its body.) -/
def match_students (netids : List String) (graph : PyGraph) :
    List (ℕ × ℕ) :=
  (max_weight_matching graph.edges).foldl (matchStep netids) []

/-- The two dict entries recorded for the matched pair `e`. -/
def pairEntries (netids : List String) (e : String × String) :
    List (ℕ × ℕ) :=
  [(netid_to_index netids e.1, netid_to_index netids e.2),
    (netid_to_index netids e.2, netid_to_index netids e.1)]

/-- Index-level disjointness of two matched pairs. -/
def IdxDisjoint (netids : List String) (e f : String × String) : Prop :=
  netid_to_index netids e.1 ≠ netid_to_index netids f.1 ∧
  netid_to_index netids e.1 ≠ netid_to_index netids f.2 ∧
  netid_to_index netids e.2 ≠ netid_to_index netids f.1 ∧
  netid_to_index netids e.2 ≠ netid_to_index netids f.2

theorem matchFold_structure (netids : List String)
    (mm : List (String × String)) (d : List (ℕ × ℕ))
    (hfresh : ∀ e ∈ mm, ∀ q ∈ d, q.1 ≠ netid_to_index netids e.1 ∧
      q.1 ≠ netid_to_index netids e.2)
    (hself : ∀ e ∈ mm, netid_to_index netids e.1 ≠ netid_to_index netids e.2)
    (hpair : mm.Pairwise (IdxDisjoint netids)) :
    mm.foldl (matchStep netids) d =
      d ++ (mm.map (pairEntries netids)).flatten := by
  induction mm generalizing d with
  | nil => simp
  | cons e mm ih =>
    have hemem : e ∈ e :: mm := List.mem_cons_self e mm
    have h1 : dinsert d (netid_to_index netids e.1) (netid_to_index netids e.2)
        = d ++ [(netid_to_index netids e.1, netid_to_index netids e.2)] :=
      dinsert_fresh _ _ _ (fun q hq => (hfresh e hemem q hq).1)
    have h2 : matchStep netids d e = d ++ pairEntries netids e := by
      unfold matchStep
      rw [h1, dinsert_fresh]
      · unfold pairEntries
        simp
      · intro q hq
        rcases List.mem_append.mp hq with hq | hq
        · exact (hfresh e hemem q hq).2
        · rcases List.mem_singleton.mp hq with rfl
          exact hself e hemem
    rw [List.foldl_cons, h2, ih]
    · simp
    · intro f hf q hq
      rcases List.mem_append.mp hq with hq | hq
      · exact hfresh f (List.mem_cons_of_mem e hf) q hq
      · have hd : IdxDisjoint netids e f :=
          (List.pairwise_cons.mp hpair).1 f hf
        unfold pairEntries at hq
        rcases List.mem_cons.mp hq with rfl | hq
        · exact ⟨hd.1, hd.2.1⟩
        · rcases List.mem_singleton.mp hq with rfl
          exact ⟨hd.2.2.1, hd.2.2.2⟩
    · exact fun f hf => hself f (List.mem_cons_of_mem e hf)
    · exact (List.pairwise_cons.mp hpair).2

/-- Hypotheses under which `match_students` is called inside the program:
every edge endpoint is one of the netids, and no edge is a self-loop. -/
def GoodGraph (netids : List String) (g : PyGraph) : Prop :=
  ∀ e ∈ g.edges, e.1 ∈ netids ∧ e.2 ∈ netids ∧ e.1 ≠ e.2

theorem goodGraph_build_graph (netids : List String) (m : List (List ℕ))
    (cutoff : ℤ) : GoodGraph netids (build_graph netids m cutoff) := by
  intro e he
  rcases (mem_edges_build_graph netids m cutoff e).mp he with
    ⟨i1, i2, h1, h2, hc, rfl⟩
  have hm1 : netids.getD i1 "" ∈ netids := by
    rw [List.getD_eq_getElem netids "" h1]
    exact List.getElem_mem h1
  have hm2 : netids.getD i2 "" ∈ netids := by
    rw [List.getD_eq_getElem netids "" h2]
    exact List.getElem_mem h2
  refine ⟨hm1, hm2, ?_⟩
  intro hcon
  have hlt := hc.2
  have heq : netids.getD i1 "" = netids.getD i2 "" := hcon
  rw [heq] at hlt
  exact lt_irrefl _ hlt

theorem match_students_structure (netids : List String) (g : PyGraph)
    (hg : GoodGraph netids g) :
    match_students netids g =
      ((max_weight_matching g.edges).map (pairEntries netids)).flatten := by
  unfold match_students
  have hmm := max_weight_matching_isMatching g.edges
  have hsub := max_weight_matching_subset g.edges
  rw [matchFold_structure]
  · simp
  · intro e he q hq
    simp at hq
  · intro e he
    rcases hg e (hsub e he) with ⟨h1, h2, h3⟩
    intro hcon
    exact h3 (netid_to_index_injOn netids e.1 e.2 h1 h2 hcon)
  · apply hmm.2.imp_of_mem
    intro e f hef hff hd
    rcases hg e (hsub e hef) with ⟨he1, he2, _⟩
    rcases hg f (hsub f hff) with ⟨hf1, hf2, _⟩
    refine ⟨?_, ?_, ?_, ?_⟩
    · exact fun hc => hd.1 (netid_to_index_injOn netids e.1 f.1 he1 hf1 hc)
    · exact fun hc => hd.2.1 (netid_to_index_injOn netids e.1 f.2 he1 hf2 hc)
    · exact fun hc => hd.2.2.1 (netid_to_index_injOn netids e.2 f.1 he2 hf1 hc)
    · exact fun hc => hd.2.2.2 (netid_to_index_injOn netids e.2 f.2 he2 hf2 hc)

theorem match_students_length (netids : List String) (g : PyGraph)
    (hg : GoodGraph netids g) :
    (match_students netids g).length =
      2 * (max_weight_matching g.edges).length := by
  rw [match_students_structure netids g hg, List.length_flatten]
  induction max_weight_matching g.edges with
  | nil => rfl
  | cons e mm ih =>
    simp only [List.map_cons, List.sum_cons, ih]
    unfold pairEntries
    simp
    omega

theorem mem_match_students (netids : List String) (g : PyGraph)
    (hg : GoodGraph netids g) (i j : ℕ) :
    (i, j) ∈ match_students netids g ↔
      ∃ e ∈ max_weight_matching g.edges,
        (i = netid_to_index netids e.1 ∧ j = netid_to_index netids e.2) ∨
        (i = netid_to_index netids e.2 ∧ j = netid_to_index netids e.1) := by
  rw [match_students_structure netids g hg]
  rw [List.mem_flatten]
  constructor
  · rintro ⟨l, hl, hmem⟩
    rcases List.mem_map.mp hl with ⟨e, he, rfl⟩
    refine ⟨e, he, ?_⟩
    unfold pairEntries at hmem
    rcases List.mem_cons.mp hmem with h | hmem
    · exact Or.inl ⟨congrArg Prod.fst h, congrArg Prod.snd h⟩
    · have h := List.mem_singleton.mp hmem
      exact Or.inr ⟨congrArg Prod.fst h, congrArg Prod.snd h⟩
  · rintro ⟨e, he, hcase⟩
    refine ⟨pairEntries netids e, List.mem_map.mpr ⟨e, he, rfl⟩, ?_⟩
    unfold pairEntries
    rcases hcase with ⟨rfl, rfl⟩ | ⟨rfl, rfl⟩
    · exact List.mem_cons_self _ _
    · exact List.mem_cons_of_mem _ (List.mem_singleton.mpr rfl)

/-- Column `j` of `np.max(suit_matrix, axis=0)`: the maximum of column `j`
over all rows. -/
def colMax (m : List (List ℕ)) (j : ℕ) : ℕ :=
  (m.map (fun r => r.getD j 0)).foldr max 0

/-- `int(np.min(np.max(suit_matrix, axis=0)))`: the minimum over the
columns of the column maxima.  `numpy` raises on an empty matrix (no
students); the embedding returns 0 there, so the scan below tries no
cutoff, as in every reachable run. -/
def start_cutoff (m : List (List ℕ)) : ℕ :=
  match (List.range m.length).map (colMax m) with
  | [] => 0
  | x :: xs => xs.foldl min x

/-- `student_num` of the full-matching branch: every student, or all but
one when the count is odd. -/
def student_num (n : ℕ) : ℕ := if n % 2 = 1 then n - 1 else n

/-- The descending scan `for cutoff in range(start_cutoff, 0, -1)`:
returns the first cutoff (with its matching) whose matching covers
`student_num` students, or `none` when the scan is exhausted. -/
def search_loop (netids : List String) (m : List (List ℕ))
    (target : ℕ) : ℕ → Option (ℕ × List (ℕ × ℕ))
  | 0 => none
  | c + 1 =>
    if (match_students netids
        (build_graph netids m ((c + 1 : ℕ) : ℤ))).length < target then
      search_loop netids m target c
    else
      some (c + 1,
        match_students netids (build_graph netids m ((c + 1 : ℕ) : ℤ)))

/-- The full-matching (`user_cutoff == -1`) branch of `__main__`. -/
def cutoff_search (netids : List String) (m : List (List ℕ)) :
    Option (ℕ × List (ℕ × ℕ)) :=
  search_loop netids m (student_num netids.length) (start_cutoff m)

theorem le_foldr_max (l : List ℕ) (x : ℕ) (hx : x ∈ l) :
    x ≤ l.foldr max 0 := by
  induction l with
  | nil => simp at hx
  | cons a l ih =>
    rw [List.foldr_cons]
    rcases List.mem_cons.mp hx with rfl | hx
    · exact Nat.le_max_left _ _
    · exact Nat.le_trans (ih hx) (Nat.le_max_right _ _)

theorem foldl_min_le (l : List ℕ) (x : ℕ) :
    l.foldl min x ≤ x ∧ ∀ y ∈ l, l.foldl min x ≤ y := by
  induction l generalizing x with
  | nil => exact ⟨Nat.le_refl _, by simp⟩
  | cons a l ih =>
    rw [List.foldl_cons]
    rcases ih (min x a) with ⟨h1, h2⟩
    refine ⟨Nat.le_trans h1 (Nat.min_le_left _ _), ?_⟩
    intro y hy
    rcases List.mem_cons.mp hy with rfl | hy
    · exact Nat.le_trans h1 (Nat.min_le_right _ _)
    · exact h2 y hy

theorem foldl_min_mem (l : List ℕ) (x : ℕ) :
    l.foldl min x = x ∨ l.foldl min x ∈ l := by
  induction l generalizing x with
  | nil => exact Or.inl rfl
  | cons a l ih =>
    rw [List.foldl_cons]
    rcases ih (min x a) with h | h
    · rcases Nat.le_total x a with hxa | hax
      · exact Or.inl (h.trans (Nat.min_eq_left hxa))
      · refine Or.inr ?_
        rw [h, Nat.min_eq_right hax]
        exact List.mem_cons_self a l
    · exact Or.inr (List.mem_cons_of_mem a h)

theorem start_cutoff_le_colMax (m : List (List ℕ)) (j : ℕ)
    (hj : j < m.length) : start_cutoff m ≤ colMax m j := by
  unfold start_cutoff
  rcases hn : (List.range m.length).map (colMax m) with _ | ⟨x, xs⟩
  · exact Nat.zero_le _
  · show xs.foldl min x ≤ colMax m j
    have hmem : colMax m j ∈ (List.range m.length).map (colMax m) :=
      List.mem_map.mpr ⟨j, List.mem_range.mpr hj, rfl⟩
    rw [hn] at hmem
    rcases List.mem_cons.mp hmem with h | h
    · rw [← h]
      exact (foldl_min_le xs _).1
    · exact (foldl_min_le xs x).2 _ h

theorem start_cutoff_is_colMax (m : List (List ℕ)) (hm : 0 < m.length) :
    ∃ j, j < m.length ∧ colMax m j = start_cutoff m := by
  unfold start_cutoff
  rcases hn : (List.range m.length).map (colMax m) with _ | ⟨x, xs⟩
  · have : m.length = 0 := by
      have := congrArg List.length hn
      simpa using this
    omega
  · show ∃ j, j < m.length ∧ colMax m j = xs.foldl min x
    have hsub : ∀ y ∈ x :: xs, ∃ j, j < m.length ∧ colMax m j = y := by
      intro y hy
      rw [← hn] at hy
      rcases List.mem_map.mp hy with ⟨j, hj, rfl⟩
      exact ⟨j, List.mem_range.mp hj, rfl⟩
    rcases foldl_min_mem xs x with h | h
    · rcases hsub x (List.mem_cons_self x xs) with ⟨j, hj, hc⟩
      exact ⟨j, hj, by rw [hc, h]⟩
    · rcases hsub _ (List.mem_cons_of_mem x h) with ⟨j, hj, hc⟩
      exact ⟨j, hj, hc⟩

theorem matGet_le_colMax (m : List (List ℕ)) (i j : ℕ) (hi : i < m.length) :
    matGet m i j ≤ colMax m j := by
  unfold matGet colMax
  apply le_foldr_max
  apply List.mem_map.mpr
  refine ⟨m.getD i [], ?_, rfl⟩
  rw [List.getD_eq_getElem m [] hi]
  exact List.getElem_mem hi

theorem search_loop_some (netids : List String) (m : List (List ℕ))
    (target : ℕ) (k : ℕ) (c : ℕ) (d : List (ℕ × ℕ))
    (h : search_loop netids m target k = some (c, d)) :
    1 ≤ c ∧ c ≤ k ∧
      d = match_students netids (build_graph netids m (c : ℤ)) ∧
      target ≤ d.length ∧
      ∀ c', c < c' → c' ≤ k →
        (match_students netids (build_graph netids m (c' : ℤ))).length <
          target := by
  induction k with
  | zero => simp [search_loop] at h
  | succ k ih =>
    unfold search_loop at h
    by_cases hlen : (match_students netids
        (build_graph netids m ((k + 1 : ℕ) : ℤ))).length < target
    · rw [if_pos hlen] at h
      rcases ih h with ⟨h1, h2, h3, h4, h5⟩
      refine ⟨h1, Nat.le_succ_of_le h2, h3, h4, ?_⟩
      intro c' hc1 hc2
      rcases Nat.lt_or_ge c' (k + 1) with hlt | hge
      · exact h5 c' hc1 (Nat.lt_succ_iff.mp hlt)
      · have : c' = k + 1 := Nat.le_antisymm hc2 hge
        rw [this]
        exact hlen
    · rw [if_neg hlen] at h
      rcases Prod.ext_iff.mp (Option.some.inj h) with ⟨hceq, hdeq⟩
      simp only [] at hceq hdeq
      subst hceq
      subst hdeq
      refine ⟨Nat.succ_le_succ (Nat.zero_le k), Nat.le_refl _, rfl,
        Nat.le_of_not_lt hlen, ?_⟩
      intro c' hc1 hc2
      omega

theorem search_loop_none (netids : List String) (m : List (List ℕ))
    (target : ℕ) (k : ℕ)
    (h : ∀ c', 1 ≤ c' → c' ≤ k →
      (match_students netids (build_graph netids m (c' : ℤ))).length <
        target) :
    search_loop netids m target k = none := by
  induction k with
  | zero => rfl
  | succ k ih =>
    unfold search_loop
    rw [if_pos (h (k + 1) (Nat.succ_le_succ (Nat.zero_le k))
      (Nat.le_refl _))]
    exact ih (fun c' h1 h2 => h c' h1 (Nat.le_succ_of_le h2))

/-- All vertices covered by a list of matching edges. -/
def endpoints {α : Type} (mm : List (α × α)) : List α :=
  mm.flatMap (fun e => [e.1, e.2])

theorem mem_endpoints {α : Type} (mm : List (α × α)) (x : α) :
    x ∈ endpoints mm ↔ ∃ e ∈ mm, x = e.1 ∨ x = e.2 := by
  unfold endpoints
  rw [List.mem_flatMap]
  constructor
  · rintro ⟨e, he, hx⟩
    rcases List.mem_cons.mp hx with h | hx
    · exact ⟨e, he, Or.inl h⟩
    · exact ⟨e, he, Or.inr (List.mem_singleton.mp hx)⟩
  · rintro ⟨e, he, h | h⟩
    · exact ⟨e, he, by rw [h]; exact List.mem_cons_self _ _⟩
    · exact ⟨e, he, by rw [h]; exact List.mem_cons_of_mem _ (List.mem_singleton.mpr rfl)⟩

theorem endpoints_length {α : Type} (mm : List (α × α)) :
    (endpoints mm).length = 2 * mm.length := by
  unfold endpoints
  induction mm with
  | nil => rfl
  | cons e mm ih =>
    rw [List.flatMap_cons, List.length_append, ih]
    simp
    omega

theorem endpoints_nodup {α : Type} (mm : List (α × α))
    (hmm : IsMatching mm) : (endpoints mm).Nodup := by
  rcases hmm with ⟨hself, hpair⟩
  induction mm with
  | nil => exact List.nodup_nil
  | cons e mm ih =>
    rcases List.pairwise_cons.mp hpair with ⟨hd, htail⟩
    have ihr := ih (fun f hf => hself f (List.mem_cons_of_mem e hf)) htail
    have hne : e.1 ≠ e.2 := hself e (List.mem_cons_self e mm)
    have h1 : e.1 ∉ endpoints mm := by
      rw [mem_endpoints]
      rintro ⟨f, hf, h | h⟩
      · exact (hd f hf).1 h
      · exact (hd f hf).2.1 h
    have h2 : e.2 ∉ endpoints mm := by
      rw [mem_endpoints]
      rintro ⟨f, hf, h | h⟩
      · exact (hd f hf).2.2.1 h
      · exact (hd f hf).2.2.2 h
    show ((e.1 :: e.2 :: []) ++ endpoints mm).Nodup
    rw [List.nodup_append]
    refine ⟨by simp [hne], ihr, ?_⟩
    intro x hx
    rcases List.mem_cons.mp hx with rfl | hx
    · exact h1
    · rcases List.mem_singleton.mp hx with rfl
      exact h2

theorem getD_inj_of_nodup (netids : List String) (hnodup : netids.Nodup)
    (i j : ℕ) (hi : i < netids.length) (hj : j < netids.length)
    (h : netids.getD i "" = netids.getD j "") : i = j := by
  rw [List.getD_eq_getElem netids "" hi, List.getD_eq_getElem netids "" hj]
    at h
  exact (List.Nodup.getElem_inj_iff hnodup).mp h

/-- Above `start_cutoff`, some participant's column is entirely below the
cutoff; with a symmetric score matrix that participant is isolated, so any
matching misses at least one of the `N` distinct participants. -/
theorem matching_small_above_start (netids : List String)
    (m : List (List ℕ)) (hnodup : netids.Nodup)
    (hsize : m.length = netids.length)
    (hsym : ∀ i j, matGet m i j = matGet m j i)
    (hn : 0 < netids.length) (cut : ℕ) (hcut : start_cutoff m < cut)
    (mm : List (String × String)) (hmm : IsMatching mm)
    (hsub : ∀ e ∈ mm, e ∈ (build_graph netids m (cut : ℤ)).edges) :
    2 * mm.length ≤ netids.length - 1 := by
  rcases start_cutoff_is_colMax m (by omega) with ⟨j, hj, hcol⟩
  have hj' : j < netids.length := by omega
  have hkey : ∀ i, matGet m i j < cut := by
    intro i
    rcases Nat.lt_or_ge i m.length with hi | hi
    · have h1 : matGet m i j ≤ colMax m j := matGet_le_colMax m i j hi
      have h2 : colMax m j < cut := by rw [hcol]; exact hcut
      omega
    · have : matGet m i j = 0 := by
        unfold matGet
        rw [List.getD_eq_default m [] hi]
        rfl
      omega
  have hx0 : ∀ e ∈ mm, e.1 ≠ netids.getD j "" ∧ e.2 ≠ netids.getD j "" := by
    intro e he
    rcases (mem_edges_build_graph netids m (cut : ℤ) e).mp (hsub e he) with
      ⟨i1, i2, h1, h2, hc, rfl⟩
    have hscore : cut ≤ matGet m i1 i2 := by exact_mod_cast hc.1
    constructor
    · intro hcon
      have : i1 = j := getD_inj_of_nodup netids hnodup i1 j h1 hj' hcon
      rw [this] at hscore
      rw [hsym j i2] at hscore
      exact absurd hscore (Nat.not_le_of_lt (hkey i2))
    · intro hcon
      have : i2 = j := getD_inj_of_nodup netids hnodup i2 j h2 hj' hcon
      rw [this] at hscore
      exact absurd hscore (Nat.not_le_of_lt (hkey i1))
  have hgood := goodGraph_build_graph netids m (cut : ℤ)
  have hx0mem : netids.getD j "" ∈ netids := by
    rw [List.getD_eq_getElem netids "" hj']
    exact List.getElem_mem hj'
  have hsubfin : (endpoints mm).toFinset ⊆
      netids.toFinset.erase (netids.getD j "") := by
    intro x hx
    rw [List.mem_toFinset, mem_endpoints] at hx
    rcases hx with ⟨e, he, hcase⟩
    rcases hgood e (hsub e he) with ⟨he1, he2, _⟩
    rcases hx0 e he with ⟨hne1, hne2⟩
    apply Finset.mem_erase.mpr
    rcases hcase with rfl | rfl
    · exact ⟨hne1, List.mem_toFinset.mpr he1⟩
    · exact ⟨hne2, List.mem_toFinset.mpr he2⟩
  have hcard := Finset.card_le_card hsubfin
  rw [List.toFinset_card_of_nodup (endpoints_nodup mm hmm)] at hcard
  rw [Finset.card_erase_of_mem (List.mem_toFinset.mpr hx0mem)] at hcard
  rw [endpoints_length] at hcard
  have hlen : netids.toFinset.card = netids.length :=
    List.toFinset_card_of_nodup hnodup
  omega

/-- The spec's wording of an eligible pair's score: the number of indices
where both availability vectors are 1. -/
def countBothOnes (a b : List ℕ) : ℕ :=
  ((a.zip b).filter (fun p => decide (p.1 = 1 ∧ p.2 = 1))).length

theorem dot_eq_countBothOnes (a b : List ℕ)
    (ha : ∀ x ∈ a, x = 0 ∨ x = 1) (hb : ∀ x ∈ b, x = 0 ∨ x = 1) :
    dot a b = countBothOnes a b := by
  unfold dot countBothOnes
  induction a generalizing b with
  | nil => cases b <;> rfl
  | cons x xs ih =>
    cases b with
    | nil => rfl
    | cons y ys =>
      have hx := ha x (List.mem_cons_self x xs)
      have hy := hb y (List.mem_cons_self y ys)
      have htail := ih ys (fun z hz => ha z (List.mem_cons_of_mem x hz))
        (fun z hz => hb z (List.mem_cons_of_mem y hz))
      rw [List.zipWith_cons_cons, List.sum_cons, List.zip_cons_cons,
        List.filter_cons]
      simp only [Bool.decide_and] at htail ⊢
      rcases hx with rfl | rfl <;> rcases hy with rfl | rfl <;>
        (simp [htail]; try omega)

/-- Symmetry of the score matrix, for every index pair (out-of-range
entries read as 0 on both sides). -/
theorem suit_matrix_symm (students : List Student) (i j : ℕ) :
    matGet (build_suit_matrix students) i j =
      matGet (build_suit_matrix students) j i := by
  rcases Nat.lt_or_ge i students.length with hi | hi
  · rcases Nat.lt_or_ge j students.length with hj | hj
    · rw [matGet_build_suit_matrix students i j hi hj,
        matGet_build_suit_matrix students j i hj hi, suitEntry_comm]
    · rw [matGet_build_suit_matrix_oob students i j (Or.inr hj),
        matGet_build_suit_matrix_oob students j i (Or.inl hj)]
  · rw [matGet_build_suit_matrix_oob students i j (Or.inl hi),
      matGet_build_suit_matrix_oob students j i (Or.inr hi)]

/-- C8: for every list of person records, the score matrix produced by
`build_suit_matrix` is symmetric: `score[i][j] = score[j][i]` for all
indices `i`, `j`. -/
theorem build_suit_matrix_symmetric (students : List Student) (i j : ℕ) :
    matGet (build_suit_matrix students) i j =
      matGet (build_suit_matrix students) j i :=
  suit_matrix_symm students i j

/-- C5: for a list of person records (availability vectors 0/1 valued),
entry `(i, j)` of the score matrix is 0 on the diagonal and whenever the
start-preference or priority difference exceeds its bound, and otherwise
counts the indices where both availability vectors are 1. -/
theorem build_suit_matrix_entries (students : List Student) (i j : ℕ)
    (hi : i < students.length) (hj : j < students.length)
    (hbin : ∀ s ∈ students, ∀ x ∈ s.available_times, x = 0 ∨ x = 1) :
    matGet (build_suit_matrix students) i j =
      if i ≠ j ∧
          |(students.getD i default).start_pref -
            (students.getD j default).start_pref| ≤ PREF_MAX_DIFF ∧
          |(students.getD i default).priority -
            (students.getD j default).priority| ≤ PRIO_MAX_DIFF then
        countBothOnes (students.getD i default).available_times
          (students.getD j default).available_times
      else 0 := by
  rw [matGet_build_suit_matrix students i j hi hj]
  unfold suitEntry
  have hmi : students.getD i default ∈ students := by
    rw [List.getD_eq_getElem students default hi]
    exact List.getElem_mem hi
  have hmj : students.getD j default ∈ students := by
    rw [List.getD_eq_getElem students default hj]
    exact List.getElem_mem hj
  by_cases hc : i ≠ j ∧
      |(students.getD i default).start_pref -
        (students.getD j default).start_pref| ≤ PREF_MAX_DIFF ∧
      |(students.getD i default).priority -
        (students.getD j default).priority| ≤ PRIO_MAX_DIFF
  · rw [if_pos hc, if_pos hc]
    exact dot_eq_countBothOnes _ _ (hbin _ hmi) (hbin _ hmj)
  · rw [if_neg hc, if_neg hc]

/-- Witness for C5 at a concrete pair of students. -/
theorem build_suit_matrix_entries_witness :
    matGet (build_suit_matrix
      [⟨"A", "a@x", "a", 0, 0, [1, 0, 1], ""⟩,
        ⟨"B", "b@x", "b", 1, 0, [1, 1, 0], ""⟩]) 0 1 =
      if (0 : ℕ) ≠ 1 ∧ |(0 : ℤ) - 1| ≤ PREF_MAX_DIFF ∧
          |(0 : ℤ) - 0| ≤ PRIO_MAX_DIFF then
        countBothOnes [1, 0, 1] [1, 1, 0]
      else 0 :=
  build_suit_matrix_entries
    [⟨"A", "a@x", "a", 0, 0, [1, 0, 1], ""⟩,
      ⟨"B", "b@x", "b", 1, 0, [1, 1, 0], ""⟩] 0 1
    (by decide) (by decide) (by decide)

/-- C7: raising the cutoff never adds an edge: for `c1 ≤ c2` every edge of
the graph built at `c2` is an edge of the graph built at `c1`. -/
theorem build_graph_cutoff_monotone (netids : List String)
    (m : List (List ℕ)) (c1 c2 : ℤ) (hc : c1 ≤ c2) (e : String × String)
    (he : e ∈ (build_graph netids m c2).edges) :
    e ∈ (build_graph netids m c1).edges := by
  rcases (mem_edges_build_graph netids m c2 e).mp he with
    ⟨i1, i2, h1, h2, ⟨hscore, hlt⟩, rfl⟩
  exact (mem_edges_build_graph netids m c1 _).mpr
    ⟨i1, i2, h1, h2, ⟨le_trans hc hscore, hlt⟩, rfl⟩

/-- Witness for C7 on a concrete matrix and cutoff pair. -/
theorem build_graph_cutoff_monotone_witness :
    ("a", "b") ∈ (build_graph ["a", "b"] [[0, 3], [3, 0]] (1 : ℤ)).edges :=
  build_graph_cutoff_monotone ["a", "b"] [[0, 3], [3, 0]] 1 3 (by decide)
    ("a", "b") (by decide)

/-- C10: at any cutoff `≤ 0` the graph has an edge between every two
participants with distinct identifiers, score-0 sentinel pairs included,
so the hard eligibility filters are not enforced by the graph there. -/
theorem build_graph_nonpositive_cutoff_complete (netids : List String)
    (m : List (List ℕ)) (cutoff : ℤ) (hcut : cutoff ≤ 0) (i j : ℕ)
    (hi : i < netids.length) (hj : j < netids.length)
    (hne : netids.getD i "" ≠ netids.getD j "") :
    (netids.getD i "", netids.getD j "") ∈
        (build_graph netids m cutoff).edges ∨
      (netids.getD j "", netids.getD i "") ∈
        (build_graph netids m cutoff).edges := by
  rcases lt_trichotomy (netids.getD i "") (netids.getD j "") with h | h | h
  · refine Or.inl ((mem_edges_build_graph netids m cutoff _).mpr
      ⟨i, j, hi, hj, ⟨?_, h⟩, rfl⟩)
    exact le_trans hcut (Int.ofNat_nonneg _)
  · exact absurd h hne
  · refine Or.inr ((mem_edges_build_graph netids m cutoff _).mpr
      ⟨j, i, hj, hi, ⟨?_, h⟩, rfl⟩)
    exact le_trans hcut (Int.ofNat_nonneg _)

/-- Witness for C10: with all scores 0 and cutoff 0, the pair is still
connected. -/
theorem build_graph_nonpositive_cutoff_complete_witness :
    ("a", "b") ∈ (build_graph ["a", "b"] [[0, 0], [0, 0]] (0 : ℤ)).edges ∨
      ("b", "a") ∈ (build_graph ["a", "b"] [[0, 0], [0, 0]] (0 : ℤ)).edges :=
  build_graph_nonpositive_cutoff_complete ["a", "b"] [[0, 0], [0, 0]] 0
    (by decide) 0 1 (by decide) (by decide) (by decide)

/-- C2: the matching engine (modelled from the spec, §4.3) returns a
valid matching drawn from the graph's edges, of maximum cardinality: no
matching of the graph contains strictly more edges. -/
theorem matching_engine_max_cardinality {α : Type} [DecidableEq α]
    (edges : List (α × α)) :
    IsMatching (max_weight_matching edges) ∧
    (∀ e ∈ max_weight_matching edges, e ∈ edges) ∧
    (∀ mm : List (α × α), IsMatching mm → mm.Nodup →
      (∀ e ∈ mm, e ∈ edges) →
      mm.length ≤ (max_weight_matching edges).length) :=
  ⟨max_weight_matching_isMatching edges, max_weight_matching_subset edges,
    fun mm h1 h2 h3 => max_weight_matching_max edges mm h1 h2 h3⟩

/-- Witness for C2 on a three-edge path graph. -/
theorem matching_engine_max_cardinality_witness :
    IsMatching (max_weight_matching [((0 : ℕ), (1 : ℕ)), (1, 2), (2, 3)]) ∧
    ([((0 : ℕ), (1 : ℕ)), (2, 3)].length ≤
      (max_weight_matching [((0 : ℕ), (1 : ℕ)), (1, 2), (2, 3)]).length) :=
  ⟨(matching_engine_max_cardinality [((0 : ℕ), (1 : ℕ)), (1, 2), (2, 3)]).1,
    (matching_engine_max_cardinality
      [((0 : ℕ), (1 : ℕ)), (1, 2), (2, 3)]).2.2
      [(0, 1), (2, 3)] (by decide) (by decide) (by decide)⟩

/-- C3: over distinct identifiers and a simple graph on them, the dict
built by `match_students` is symmetric, injective in both coordinates,
self-partner-free, and every recorded pair is an edge of the graph. -/
theorem match_students_valid_matching (netids : List String) (g : PyGraph)
    (_hnodup : netids.Nodup) (hgood : GoodGraph netids g) :
    (∀ i j, (i, j) ∈ match_students netids g →
      (j, i) ∈ match_students netids g) ∧
    (∀ i1 i2 j, (i1, j) ∈ match_students netids g →
      (i2, j) ∈ match_students netids g → i1 = i2) ∧
    (∀ i j1 j2, (i, j1) ∈ match_students netids g →
      (i, j2) ∈ match_students netids g → j1 = j2) ∧
    (∀ i j, (i, j) ∈ match_students netids g →
      (netids.getD i "", netids.getD j "") ∈ g.edges ∨
      (netids.getD j "", netids.getD i "") ∈ g.edges) ∧
    (∀ i, (i, i) ∉ match_students netids g) := by
  have hmatch := max_weight_matching_isMatching g.edges
  have hsub := max_weight_matching_subset g.edges
  have hvals : ∀ e ∈ max_weight_matching g.edges,
      e.1 ∈ netids ∧ e.2 ∈ netids ∧ e.1 ≠ e.2 :=
    fun e he => hgood e (hsub e he)
  have hdisj : ∀ e ∈ max_weight_matching g.edges,
      ∀ f ∈ max_weight_matching g.edges, e ≠ f → EdgesDisjoint e f :=
    fun e he f hf hne => hmatch.2.forall edgesDisjoint_symm he hf hne
  have hmem := mem_match_students netids g hgood
  -- an endpoint index determines its edge inside the matching
  have hsame : ∀ e ∈ max_weight_matching g.edges,
      ∀ f ∈ max_weight_matching g.edges, ∀ x y : String,
      (x = e.1 ∨ x = e.2) → (y = f.1 ∨ y = f.2) →
      netid_to_index netids x = netid_to_index netids y → e = f := by
    intro e he f hf x y hx hy hxy
    by_contra hne
    have hd := hdisj e he f hf hne
    rcases hvals e he with ⟨he1, he2, _⟩
    rcases hvals f hf with ⟨hf1, hf2, _⟩
    have hxm : x ∈ netids := by rcases hx with rfl | rfl <;> assumption
    have hym : y ∈ netids := by rcases hy with rfl | rfl <;> assumption
    have := netid_to_index_injOn netids x y hxm hym hxy
    rcases hx with rfl | rfl <;> rcases hy with rfl | rfl
    · exact hd.1 this
    · exact hd.2.1 this
    · exact hd.2.2.1 this
    · exact hd.2.2.2 this
  have hselfidx : ∀ e ∈ max_weight_matching g.edges,
      netid_to_index netids e.1 ≠ netid_to_index netids e.2 := by
    intro e he hc
    rcases hvals e he with ⟨h1, h2, h3⟩
    exact h3 (netid_to_index_injOn netids e.1 e.2 h1 h2 hc)
  refine ⟨?_, ?_, ?_, ?_, ?_⟩
  · intro i j hij
    rcases (hmem i j).mp hij with ⟨e, he, hc⟩
    refine (hmem j i).mpr ⟨e, he, ?_⟩
    rcases hc with ⟨rfl, rfl⟩ | ⟨rfl, rfl⟩
    · exact Or.inr ⟨rfl, rfl⟩
    · exact Or.inl ⟨rfl, rfl⟩
  · intro i1 i2 j h1 h2
    rcases (hmem i1 j).mp h1 with ⟨e, he, hce⟩
    rcases (hmem i2 j).mp h2 with ⟨f, hf, hcf⟩
    have hef : e = f := by
      rcases hce with ⟨hi1, hj1⟩ | ⟨hi1, hj1⟩ <;>
        rcases hcf with ⟨hi2, hj2⟩ | ⟨hi2, hj2⟩
      · exact hsame e he f hf e.2 f.2 (Or.inr rfl) (Or.inr rfl)
          (hj1 ▸ hj2 ▸ rfl)
      · exact hsame e he f hf e.2 f.1 (Or.inr rfl) (Or.inl rfl)
          (hj1 ▸ hj2 ▸ rfl)
      · exact hsame e he f hf e.1 f.2 (Or.inl rfl) (Or.inr rfl)
          (hj1 ▸ hj2 ▸ rfl)
      · exact hsame e he f hf e.1 f.1 (Or.inl rfl) (Or.inl rfl)
          (hj1 ▸ hj2 ▸ rfl)
    subst hef
    rcases hce with ⟨hi1, hj1⟩ | ⟨hi1, hj1⟩ <;>
      rcases hcf with ⟨hi2, hj2⟩ | ⟨hi2, hj2⟩
    · exact hi1.trans hi2.symm
    · exact absurd (hj2.symm.trans hj1) (hselfidx e he)
    · exact absurd (hj1.symm.trans hj2) (hselfidx e he)
    · exact hi1.trans hi2.symm
  · intro i j1 j2 h1 h2
    rcases (hmem i j1).mp h1 with ⟨e, he, hce⟩
    rcases (hmem i j2).mp h2 with ⟨f, hf, hcf⟩
    have hef : e = f := by
      rcases hce with ⟨hi1, hj1⟩ | ⟨hi1, hj1⟩ <;>
        rcases hcf with ⟨hi2, hj2⟩ | ⟨hi2, hj2⟩
      · exact hsame e he f hf e.1 f.1 (Or.inl rfl) (Or.inl rfl)
          (hi1 ▸ hi2 ▸ rfl)
      · exact hsame e he f hf e.1 f.2 (Or.inl rfl) (Or.inr rfl)
          (hi1 ▸ hi2 ▸ rfl)
      · exact hsame e he f hf e.2 f.1 (Or.inr rfl) (Or.inl rfl)
          (hi1 ▸ hi2 ▸ rfl)
      · exact hsame e he f hf e.2 f.2 (Or.inr rfl) (Or.inr rfl)
          (hi1 ▸ hi2 ▸ rfl)
    subst hef
    rcases hce with ⟨hi1, hj1⟩ | ⟨hi1, hj1⟩ <;>
      rcases hcf with ⟨hi2, hj2⟩ | ⟨hi2, hj2⟩
    · exact hj1.trans hj2.symm
    · exact absurd (hi1.symm.trans hi2) (hselfidx e he)
    · exact absurd (hi2.symm.trans hi1) (hselfidx e he)
    · exact hj1.trans hj2.symm
  · intro i j hij
    rcases (hmem i j).mp hij with ⟨e, he, hc⟩
    rcases hvals e he with ⟨h1, h2, _⟩
    rcases hc with ⟨rfl, rfl⟩ | ⟨rfl, rfl⟩
    · refine Or.inl ?_
      rw [(getD_netid_to_index netids e.1 h1).2,
        (getD_netid_to_index netids e.2 h2).2]
      exact hsub e he
    · refine Or.inr ?_
      rw [(getD_netid_to_index netids e.2 h2).2,
        (getD_netid_to_index netids e.1 h1).2]
      exact hsub e he
  · intro i hii
    rcases (hmem i i).mp hii with ⟨e, he, hc⟩
    rcases hc with ⟨hi1, hi2⟩ | ⟨hi1, hi2⟩
    · exact hselfidx e he (hi1 ▸ hi2 ▸ rfl)
    · exact hselfidx e he (hi2 ▸ hi1 ▸ rfl)

/-- Witness for C3 on a concrete two-student graph. -/
theorem match_students_valid_matching_witness :
    (∀ i j, (i, j) ∈ match_students ["a", "b"]
        (build_graph ["a", "b"] [[0, 1], [1, 0]] 1) →
      (j, i) ∈ match_students ["a", "b"]
        (build_graph ["a", "b"] [[0, 1], [1, 0]] 1)) ∧
    (∀ i, (i, i) ∉ match_students ["a", "b"]
      (build_graph ["a", "b"] [[0, 1], [1, 0]] 1)) :=
  ⟨(match_students_valid_matching ["a", "b"]
      (build_graph ["a", "b"] [[0, 1], [1, 0]] 1) (by decide)
      (goodGraph_build_graph ["a", "b"] [[0, 1], [1, 0]] 1)).1,
    (match_students_valid_matching ["a", "b"]
      (build_graph ["a", "b"] [[0, 1], [1, 0]] 1) (by decide)
      (goodGraph_build_graph ["a", "b"] [[0, 1], [1, 0]] 1)).2.2.2.2⟩

/-- C4 counterexample: with two participants, an all-zero score matrix
and cutoff 1, no edge qualifies and the built graph has an empty vertex
set, although "a" is a participant identifier — the vertex set is not the
set of all participant identifiers. -/
theorem build_graph_vertex_set_counterexample :
    "a" ∈ (["a", "b"] : List String) ∧
    (build_graph ["a", "b"] [[0, 0], [0, 0]] (1 : ℤ)).nodes = [] ∧
    "a" ∉ (build_graph ["a", "b"] [[0, 0], [0, 0]] (1 : ℤ)).nodes :=
  ⟨by decide, by decide, by decide⟩

/-- C4 (amended): the edge set is exactly
`{(i, j) : netid i < netid j, score[i][j] ≥ cutoff}` with no duplicates,
and the vertex set consists exactly of the endpoints of qualifying edges
(participants with no qualifying partner are absent). -/
theorem build_graph_characterization (netids : List String)
    (m : List (List ℕ)) (cutoff : ℤ) :
    (∀ e, e ∈ (build_graph netids m cutoff).edges ↔
      ∃ i1 i2, i1 < netids.length ∧ i2 < netids.length ∧
        cutoff ≤ (matGet m i1 i2 : ℤ) ∧
        netids.getD i1 "" < netids.getD i2 "" ∧
        e = (netids.getD i1 "", netids.getD i2 "")) ∧
    (∀ x, x ∈ (build_graph netids m cutoff).nodes ↔
      ∃ i1 i2, i1 < netids.length ∧ i2 < netids.length ∧
        cutoff ≤ (matGet m i1 i2 : ℤ) ∧
        netids.getD i1 "" < netids.getD i2 "" ∧
        (x = netids.getD i1 "" ∨ x = netids.getD i2 "")) ∧
    (build_graph netids m cutoff).edges.Nodup := by
  refine ⟨?_, ?_, edges_nodup_build_graph netids m cutoff⟩
  · intro e
    rw [mem_edges_build_graph]
    constructor
    · rintro ⟨i1, i2, h1, h2, ⟨hs, hl⟩, he⟩
      exact ⟨i1, i2, h1, h2, hs, hl, he⟩
    · rintro ⟨i1, i2, h1, h2, hs, hl, he⟩
      exact ⟨i1, i2, h1, h2, ⟨hs, hl⟩, he⟩
  · intro x
    rw [mem_nodes_build_graph]
    constructor
    · rintro ⟨i1, i2, h1, h2, ⟨hs, hl⟩, he⟩
      exact ⟨i1, i2, h1, h2, hs, hl, he⟩
    · rintro ⟨i1, i2, h1, h2, hs, hl, he⟩
      exact ⟨i1, i2, h1, h2, ⟨hs, hl⟩, he⟩

/-- Witness for the amended C4 on a concrete graph. -/
theorem build_graph_characterization_witness :
    ("a", "b") ∈ (build_graph ["a", "b"] [[0, 1], [1, 0]] (1 : ℤ)).edges ∧
    (build_graph ["a", "b"] [[0, 1], [1, 0]] (1 : ℤ)).edges.Nodup :=
  ⟨((build_graph_characterization ["a", "b"] [[0, 1], [1, 0]] 1).1
      ("a", "b")).mpr ⟨0, 1, by decide, by decide, by decide, by decide, rfl⟩,
    (build_graph_characterization ["a", "b"] [[0, 1], [1, 0]] 1).2.2⟩

/-- C6: if no cutoff in `[1, start_cutoff]` admits a matching covering
`student_num` participants, the full-matching search returns `none`
(reported as "Full matching not possible", an expected outcome); and if
`start_cutoff < 1` the scan tries no cutoff and fails immediately. -/
theorem cutoff_search_reports_failure (netids : List String)
    (m : List (List ℕ)) :
    ((∀ cut : ℕ, 1 ≤ cut → cut ≤ start_cutoff m →
        ∀ mm : List (String × String), IsMatching mm → mm.Nodup →
          (∀ e ∈ mm, e ∈ (build_graph netids m (cut : ℤ)).edges) →
          2 * mm.length < student_num netids.length) →
      cutoff_search netids m = none) ∧
    (start_cutoff m = 0 → cutoff_search netids m = none) := by
  constructor
  · intro h
    unfold cutoff_search
    apply search_loop_none
    intro cut h1 h2
    have hgood := goodGraph_build_graph netids m (cut : ℤ)
    rw [match_students_length netids _ hgood]
    exact h cut h1 h2
      (max_weight_matching (build_graph netids m (cut : ℤ)).edges)
      (max_weight_matching_isMatching _)
      (max_weight_matching_nodup _ (edges_nodup_build_graph netids m _))
      (max_weight_matching_subset _)
  · intro h
    unfold cutoff_search
    rw [h]
    rfl

/-- Witness for C6: all-zero scores give `start_cutoff = 0` and immediate
failure. -/
theorem cutoff_search_reports_failure_witness :
    cutoff_search ["a", "b"] [[0, 0], [0, 0]] = none :=
  (cutoff_search_reports_failure ["a", "b"] [[0, 0], [0, 0]]).2 (by decide)

/-- Participant A of the spec's four-student scenario. -/
def studentA : Student :=
  ⟨"A", "a@x.com", "a", 0, 0, [1, 1, 1] ++ List.replicate 25 0, "A-contact"⟩

/-- Participant B of the spec's four-student scenario. -/
def studentB : Student :=
  ⟨"B", "b@x.com", "b", 0, 0, [1, 1, 1] ++ List.replicate 25 0, "B-contact"⟩

/-- Participant C of the spec's four-student scenario. -/
def studentC : Student :=
  ⟨"C", "c@x.com", "c", 0, 0,
    [0, 0, 0, 1, 1] ++ List.replicate 23 0, "C-contact"⟩

/-- Participant D of the spec's four-student scenario. -/
def studentD : Student :=
  ⟨"D", "d@x.com", "d", 0, 0,
    [0, 0, 0, 1, 1] ++ List.replicate 23 0, "D-contact"⟩

/-- C9: four participants with identical preferences and priorities whose
availability overlaps are (A,B)=3, (C,D)=2 and 0 otherwise: the cutoff
search returns cutoff 2 with the matching pairing A–B and C–D. -/
theorem four_student_example_scenario :
    dot studentA.available_times studentB.available_times = 3 ∧
    dot studentC.available_times studentD.available_times = 2 ∧
    dot studentA.available_times studentC.available_times = 0 ∧
    dot studentA.available_times studentD.available_times = 0 ∧
    dot studentB.available_times studentC.available_times = 0 ∧
    dot studentB.available_times studentD.available_times = 0 ∧
    cutoff_search ["a", "b", "c", "d"]
        (build_suit_matrix [studentA, studentB, studentC, studentD]) =
      some (2, [(0, 1), (1, 0), (2, 3), (3, 2)]) := by
  refine ⟨by decide, by decide, by decide, by decide, by decide, by decide,
    by decide⟩

theorem start_cutoff_nil : start_cutoff [] = 0 := rfl

/-- C1 counterexample: with three participants (odd N) scoring
`(a,b) = 5`, `(a,c) = (b,c) = 1`, the search returns cutoff 1, yet
cutoff 5 — strictly greater than both 1 and the start bound
`min over j of max over i of score[i][j] = 1` — still admits a matching
covering `floor(3/2)*2 = 2` participants, namely `[(a, b)]`. -/
theorem cutoff_search_not_maximum_counterexample :
    cutoff_search ["a", "b", "c"] [[0, 5, 1], [5, 0, 1], [1, 1, 0]] =
      some (1, [(0, 1), (1, 0)]) ∧
    start_cutoff [[0, 5, 1], [5, 0, 1], [1, 1, 0]] = 1 ∧
    student_num 3 = 2 ∧
    (1 : ℕ) < 5 ∧
    IsMatching [(("a" : String), ("b" : String))] ∧
    [(("a" : String), ("b" : String))].Nodup ∧
    (∀ e ∈ [(("a" : String), ("b" : String))],
      e ∈ (build_graph ["a", "b", "c"] [[0, 5, 1], [5, 0, 1], [1, 1, 0]]
        (5 : ℤ)).edges) ∧
    student_num 3 ≤ 2 * [(("a" : String), ("b" : String))].length := by
  decide

/-- C1 (amended): whenever the search returns a cutoff `c` — for every
participant count `N`, odd or even, and every score matrix — the graph at
`c` admits a matching covering `student_num = floor(N/2)*2` participants,
`c` lies in `[1, start_cutoff]`, and no cutoff in `(c, start_cutoff]`
admits such a matching; if moreover `N` is even, the identifiers are
pairwise distinct, and the score matrix is symmetric with one row per
participant (as the scorer always produces), then no cutoff strictly
greater than `c` admits one at all.  For odd `N` that last clause fails:
a cutoff above `start_cutoff` can still admit a full-minus-one matching
(see the counterexample). -/
theorem cutoff_search_maximality (netids : List String)
    (m : List (List ℕ)) (c : ℕ) (d : List (ℕ × ℕ))
    (h : cutoff_search netids m = some (c, d)) :
    (1 ≤ c ∧ c ≤ start_cutoff m) ∧
    (∃ mm : List (String × String), IsMatching mm ∧ mm.Nodup ∧
      (∀ e ∈ mm, e ∈ (build_graph netids m (c : ℤ)).edges) ∧
      student_num netids.length ≤ 2 * mm.length) ∧
    (∀ cut : ℕ, c < cut → cut ≤ start_cutoff m →
      ∀ mm : List (String × String), IsMatching mm → mm.Nodup →
        (∀ e ∈ mm, e ∈ (build_graph netids m (cut : ℤ)).edges) →
        2 * mm.length < student_num netids.length) ∧
    (netids.length % 2 = 0 → netids.Nodup → m.length = netids.length →
      (∀ i j, matGet m i j = matGet m j i) →
      ∀ cut : ℕ, c < cut →
        ∀ mm : List (String × String), IsMatching mm → mm.Nodup →
          (∀ e ∈ mm, e ∈ (build_graph netids m (cut : ℤ)).edges) →
          2 * mm.length < netids.length) := by
  unfold cutoff_search at h
  rcases search_loop_some netids m _ _ c d h with ⟨h1, h2, h3, h4, h5⟩
  have hgoodc := goodGraph_build_graph netids m (c : ℤ)
  have hlen_c := match_students_length netids _ hgoodc
  refine ⟨⟨h1, h2⟩, ?_, ?_, ?_⟩
  · refine ⟨max_weight_matching (build_graph netids m (c : ℤ)).edges,
      max_weight_matching_isMatching _,
      max_weight_matching_nodup _ (edges_nodup_build_graph _ _ _),
      max_weight_matching_subset _, ?_⟩
    rw [h3, hlen_c] at h4
    omega
  · intro cut hcut hle mm hmm hnd hsub2
    have hfail := h5 cut hcut hle
    have hgood := goodGraph_build_graph netids m (cut : ℤ)
    rw [match_students_length netids _ hgood] at hfail
    have hmax := max_weight_matching_max
      (build_graph netids m (cut : ℤ)).edges mm hmm hnd hsub2
    omega
  · intro heven hnodup hsize hsym cut hcut mm hmm hnd hsub2
    have htarget : student_num netids.length = netids.length := by
      unfold student_num
      rw [if_neg (by omega)]
    rcases le_or_lt cut (start_cutoff m) with hle | hgt
    · have hfail := h5 cut hcut hle
      have hgood := goodGraph_build_graph netids m (cut : ℤ)
      rw [match_students_length netids _ hgood] at hfail
      have hmax := max_weight_matching_max
        (build_graph netids m (cut : ℤ)).edges mm hmm hnd hsub2
      omega
    · have hn1 : 0 < netids.length := by
        by_contra hz
        have hm0 : m = [] := List.length_eq_zero.mp (by omega)
        rw [hm0, start_cutoff_nil] at h2
        omega
      have := matching_small_above_start netids m hnodup hsize hsym hn1
        cut hgt mm hmm hsub2
      omega

/-- Witness for the amended C1 on two students with a single score-3
pairing: all four clauses at the concrete run, the even-`N` clause with
its antecedents discharged. -/
theorem cutoff_search_maximality_witness :
    (1 ≤ 3 ∧ 3 ≤ start_cutoff (build_suit_matrix [studentA, studentB])) ∧
    (∃ mm : List (String × String), IsMatching mm ∧ mm.Nodup ∧
      (∀ e ∈ mm, e ∈ (build_graph ["a", "b"]
        (build_suit_matrix [studentA, studentB]) ((3 : ℕ) : ℤ)).edges) ∧
      student_num (["a", "b"] : List String).length ≤ 2 * mm.length) ∧
    (∀ cut : ℕ, 3 < cut →
      cut ≤ start_cutoff (build_suit_matrix [studentA, studentB]) →
      ∀ mm : List (String × String), IsMatching mm → mm.Nodup →
        (∀ e ∈ mm, e ∈ (build_graph ["a", "b"]
          (build_suit_matrix [studentA, studentB]) ((cut : ℕ) : ℤ)).edges) →
        2 * mm.length < student_num (["a", "b"] : List String).length) ∧
    (∀ cut : ℕ, 3 < cut →
      ∀ mm : List (String × String), IsMatching mm → mm.Nodup →
        (∀ e ∈ mm, e ∈ (build_graph ["a", "b"]
          (build_suit_matrix [studentA, studentB]) ((cut : ℕ) : ℤ)).edges) →
        2 * mm.length < (["a", "b"] : List String).length) :=
  let T := cutoff_search_maximality ["a", "b"]
    (build_suit_matrix [studentA, studentB]) 3 [(0, 1), (1, 0)] (by decide)
  ⟨T.1, T.2.1, T.2.2.1,
    T.2.2.2 (by decide) (by decide) (by decide)
      (suit_matrix_symm [studentA, studentB])⟩

end PartnerMatching
